import Mathlib

/-!
# Verification of the RAG-System core (chunker, retrieval filter, config, error handling)

This file shallowly embeds the pure core of the repository's three Python
source files:

* `utils.py` — `load_config` and `semantic_chunker`;
* `Chatbot.py` — `query_ollama` and `retrieve_context` (its pure
  filter-and-format tail is factored out as `Chatbot.filter_and_format`);
* `Fastapi.py` — `retrieve_context` (comprehension-style filter).

Python strings are modelled as Lean `String`s; the string-splitting
primitives (`str.split('\n')`, `str.strip()`, `str.split()`) are defined
from scratch over the character list so that they are fully transparent to
proofs.  Python list slices, including the `current_chunk[-overlap:]`
slice whose `overlap = 0` case keeps the *whole* list, are modelled by
`pySliceTo` / `pySliceFrom` / `pyLastSlice` over `Int` indices, exactly as
Python evaluates them.  The chunker's `while` loop is modelled with an
explicit fuel parameter (it genuinely diverges for `overlap = 0`); running
lengths are carried as `Int` to mirror Python integer arithmetic.
Similarity scores are modelled as rationals: the filter only ever compares
scores with `>=`, never computes with them.  External collaborators
(model service, vector index, file system) are passed in as
`Except`-valued functions.
-/

/-! ## Python string primitives -/

/-- Splitting a character list at every character satisfying `p`
(the pieces between separators, separators dropped); `acc` is the
reversed current piece.  Mirrors the piece structure of Python's
`str.split(sep)`: `n` separators yield `n + 1` pieces. -/
def splitPredAux (p : Char → Bool) : List Char → List Char → List (List Char)
  | [], acc => [acc.reverse]
  | c :: cs, acc =>
      if p c then acc.reverse :: splitPredAux p cs []
      else splitPredAux p cs (c :: acc)

/-- All pieces of `l` between characters satisfying `p`. -/
def splitPredChars (p : Char → Bool) (l : List Char) : List (List Char) :=
  splitPredAux p l []

/-- Python `text.split('\n')`. -/
def pySplitOn (sep : Char) (s : String) : List String :=
  (splitPredChars (fun c => c = sep) s.data).map String.mk

/-- Python `s.strip()`: drop leading and trailing whitespace characters. -/
def pyStrip (s : String) : String :=
  String.mk (((s.data.dropWhile Char.isWhitespace).reverse.dropWhile
    Char.isWhitespace).reverse)

/-- Python `s.split()` (no argument): whitespace-delimited words, empty
pieces dropped. -/
def pyWords (s : String) : List String :=
  ((splitPredChars Char.isWhitespace s.data).filter (fun w => w ≠ [])).map String.mk

/-- Python `' '.join(words)`. -/
def joinWords : List String → String
  | [] => ""
  | [w] => w
  | w :: ws => w ++ " " ++ joinWords ws

/-- From `utils.py` line 91: `[p.strip() for p in text.split('\n') if p.strip()]`. -/
def paragraphsOf (text : String) : List String :=
  ((pySplitOn '\n' text).map pyStrip).filter (fun p => p ≠ "")

/-! ## Python list slices -/

/-- Python `l[:i]` for an arbitrary integer `i`. -/
def pySliceTo {α : Type} (l : List α) (i : Int) : List α :=
  if 0 ≤ i then l.take i.toNat else l.take (l.length - (-i).toNat)

/-- Python `l[i:]` for an arbitrary integer `i`. -/
def pySliceFrom {α : Type} (l : List α) (i : Int) : List α :=
  if 0 ≤ i then l.drop i.toNat else l.drop (l.length - (-i).toNat)

/-- Python `l[-k:]` for a natural `k`; for `k = 0` this is `l[0:] = l`
(Python's `-0 = 0`), for `k > 0` it is the last `min k l.length`
elements. -/
def pyLastSlice {α : Type} (l : List α) (k : Nat) : List α :=
  pySliceFrom l (-(k : Int))

/-! ## The chunker (`utils.py`, `semantic_chunker`, lines 77–127)

The state of the accumulator is `(current_chunk, current_length)`; emitted
chunks are returned alongside the final accumulator state.  `innerLoop` is
the `while para_words:` loop (lines 112–121), fuelled; `paraLoop` is the
`for para in paragraphs:` loop (lines 96–121).  Each returns `none` when
the fuel runs out with the `while` loop still running. -/

/-- Lines 112–121 of `utils.py`:
```
while para_words:
    remaining = chunk_size - current_length
    current_chunk.extend(para_words[:remaining])
    current_length += remaining
    para_words = para_words[remaining:]
    if current_length >= chunk_size:
        chunks.append(' '.join(current_chunk))
        current_chunk = current_chunk[-overlap:]
        current_length = len(current_chunk)
```
-/
def innerLoop (cs ov : Nat) : Nat → List String → List String → Int →
    Option (List String × List String × Int)
  | _, [], cc, cl => some ([], cc, cl)
  | 0, _ :: _, _, _ => none
  | f + 1, h :: t, cc, cl =>
      let remaining : Int := (cs : Int) - cl
      let cc1 := cc ++ pySliceTo (h :: t) remaining
      let cl1 := cl + remaining
      let pw1 := pySliceFrom (h :: t) remaining
      if (cs : Int) ≤ cl1 then
        (innerLoop cs ov f pw1 (pyLastSlice cc1 ov) ((pyLastSlice cc1 ov).length : Int)).map
          (fun r => (joinWords cc1 :: r.1, r.2))
      else
        innerLoop cs ov f pw1 cc1 cl1

/-- Lines 96–121 of `utils.py`: the paragraph loop.  Case 1 (the paragraph
fits) extends the accumulator; otherwise the accumulator is flushed if
non-empty (keeping its last `overlap` words) and the paragraph is fed to
the `while` loop. -/
def paraLoop (cs ov fuel : Nat) : List (List String) → List String → Int →
    Option (List String × List String × Int)
  | [], cc, cl => some ([], cc, cl)
  | para :: rest, cc, cl =>
      if cl + (para.length : Int) ≤ (cs : Int) then
        paraLoop cs ov fuel rest (cc ++ para) (cl + (para.length : Int))
      else if cc = [] then
        (innerLoop cs ov fuel para cc cl).bind (fun r1 =>
          (paraLoop cs ov fuel rest r1.2.1 r1.2.2).map (fun r2 =>
            (r1.1 ++ r2.1, r2.2)))
      else
        (innerLoop cs ov fuel para (pyLastSlice cc ov)
            ((pyLastSlice cc ov).length : Int)).bind (fun r1 =>
          (paraLoop cs ov fuel rest r1.2.1 r1.2.2).map (fun r2 =>
            (joinWords cc :: (r1.1 ++ r2.1), r2.2)))

/-- From `utils.py` lines 88–127: `semantic_chunker(text, chunk_size, overlap)`,
with an explicit fuel bound on the inner `while` loop; `none` means the
fuel ran out (the Python function would still be looping). -/
def semantic_chunker (text : String) (chunk_size overlap fuel : Nat) :
    Option (List String) :=
  (paraLoop chunk_size overlap fuel ((paragraphsOf text).map pyWords) [] 0).map
    (fun r => r.1 ++ (if r.2.1 = [] then [] else [joinWords r.2.1]))

/-! ## Word-level shadow of the chunker

`innerLoopW`/`paraLoopW`/`semantic_chunkerW` are step-for-step identical to
`innerLoop`/`paraLoop`/`semantic_chunker` except that an emitted chunk is
kept as its word list instead of being joined into a string at the
`chunks.append(' '.join(current_chunk))` sites.  The correspondence theorem
`innerLoop_eq_W` (and its relatives) shows the real chunker is the shadow
composed with `joinWords`; all structural facts are proved on the shadow
and transported. -/

/-- Word-level shadow of `innerLoop`. -/
def innerLoopW (cs ov : Nat) : Nat → List String → List String → Int →
    Option (List (List String) × List String × Int)
  | _, [], cc, cl => some ([], cc, cl)
  | 0, _ :: _, _, _ => none
  | f + 1, h :: t, cc, cl =>
      let remaining : Int := (cs : Int) - cl
      let cc1 := cc ++ pySliceTo (h :: t) remaining
      let cl1 := cl + remaining
      let pw1 := pySliceFrom (h :: t) remaining
      if (cs : Int) ≤ cl1 then
        (innerLoopW cs ov f pw1 (pyLastSlice cc1 ov) ((pyLastSlice cc1 ov).length : Int)).map
          (fun r => (cc1 :: r.1, r.2))
      else
        innerLoopW cs ov f pw1 cc1 cl1

/-- Word-level shadow of `paraLoop`. -/
def paraLoopW (cs ov fuel : Nat) : List (List String) → List String → Int →
    Option (List (List String) × List String × Int)
  | [], cc, cl => some ([], cc, cl)
  | para :: rest, cc, cl =>
      if cl + (para.length : Int) ≤ (cs : Int) then
        paraLoopW cs ov fuel rest (cc ++ para) (cl + (para.length : Int))
      else if cc = [] then
        (innerLoopW cs ov fuel para cc cl).bind (fun r1 =>
          (paraLoopW cs ov fuel rest r1.2.1 r1.2.2).map (fun r2 =>
            (r1.1 ++ r2.1, r2.2)))
      else
        (innerLoopW cs ov fuel para (pyLastSlice cc ov)
            ((pyLastSlice cc ov).length : Int)).bind (fun r1 =>
          (paraLoopW cs ov fuel rest r1.2.1 r1.2.2).map (fun r2 =>
            (cc :: (r1.1 ++ r2.1), r2.2)))

/-- Word-level shadow of `semantic_chunker`. -/
def semantic_chunkerW (text : String) (chunk_size overlap fuel : Nat) :
    Option (List (List String)) :=
  (paraLoopW chunk_size overlap fuel ((paragraphsOf text).map pyWords) [] 0).map
    (fun r => r.1 ++ (if r.2.1 = [] then [] else [r.2.1]))

/-! ## The retrieval filter (`Chatbot.py` lines 82–113, `Fastapi.py` lines 18–44)

A search hit carries a similarity score and the two requested output
fields.  Scores are modelled as rationals: the code only ever compares a
hit's `distance` against `score_threshold` with `>=`. -/

/-- One element of `results[0]`: the `distance` plus the requested
`entity` fields `source` and `text`. -/
structure SearchHit where
  score : ℚ
  source : String
  text : String
deriving DecidableEq

/-- The fixed separator `"\n\n---\n\n"` between formatted hits. -/
def chunkSeparator : String := "\n\n---\n\n"

namespace Chatbot

/-- From `Chatbot.py` lines 102–107: the accumulation loop
```
relevant_chunks = []
for hit in results[0]:
    if hit["distance"] >= config["score_threshold"]:
        source = hit["entity"]["source"]
        text = hit["entity"]["text"]
        relevant_chunks.append(f"SOURCE: {source}\n{text}")
```
-/
def relevant_chunks_loop (score_threshold : ℚ) : List SearchHit → List String
  | [] => []
  | hit :: rest =>
      if hit.score ≥ score_threshold then
        ("SOURCE: " ++ hit.source ++ "\n" ++ hit.text) ::
          relevant_chunks_loop score_threshold rest
      else
        relevant_chunks_loop score_threshold rest

/-- From `Chatbot.py` lines 101–109: the pure filter-and-format tail of
`retrieve_context`, from the hit list `results[0]` to
`"\n\n---\n\n".join(relevant_chunks) if relevant_chunks else None`. -/
def filter_and_format (results0 : List SearchHit) (score_threshold : ℚ) :
    Option String :=
  let relevant_chunks := relevant_chunks_loop score_threshold results0
  if relevant_chunks = [] then none
  else some (String.intercalate chunkSeparator relevant_chunks)

/-- From `Chatbot.py` lines 64–113: `retrieve_context`, with the three external
steps (Milvus client construction, the embeddings call, the search call)
passed in as `Except`-valued collaborators; the surrounding
`try`/`except` turns any failure into `None`. -/
def retrieve_context (milvusInit : Except String Unit)
    (embeddings : String → Except String (List ℚ))
    (search : List ℚ → Except String (List SearchHit))
    (score_threshold : ℚ) (query : String) : Option String :=
  match milvusInit with
  | .error _ => none
  | .ok _ =>
      match embeddings query with
      | .error _ => none
      | .ok embedding =>
          match search embedding with
          | .error _ => none
          | .ok results0 => filter_and_format results0 score_threshold

/-- From `Chatbot.py` lines 40–46: the f-string prompt of `query_ollama`,
with its literal indentation. -/
def ragPrompt (query : String) (context : String) : String :=
  "Answer the question based only on the following context:\n    \n    " ++
    context ++ "\n\n    Question: " ++ query ++
    "\n    \n    Answer clearly and concisely."

/-- From `Chatbot.py` lines 27–62: `query_ollama`; the chat call is a
collaborator returning either the response's `message.content` or an
exception, and the `except` branch returns the fixed apology string. -/
def query_ollama (chat : String → Except String String)
    (query : String) (context : String) : String :=
  match chat (ragPrompt query context) with
  | .ok content => content
  | .error _ => "Sorry, I encountered an error"

end Chatbot

namespace Fastapi

/-- From `Fastapi.py` lines 34–38: the list comprehension
```
relevant_chunks = [
    f"SOURCE: {hit['entity']['source']}\n{hit['entity']['text']}"
    for hit in results[0]
    if hit["distance"] >= config["score_threshold"]
]
```
-/
def relevant_chunks (results0 : List SearchHit) (score_threshold : ℚ) :
    List String :=
  (results0.filter (fun hit => hit.score ≥ score_threshold)).map
    (fun hit => "SOURCE: " ++ hit.source ++ "\n" ++ hit.text)

/-- From `Fastapi.py` lines 34–40: the pure filter-and-format tail of
`retrieve_context`. -/
def filter_and_format (results0 : List SearchHit) (score_threshold : ℚ) :
    Option String :=
  let chunks := relevant_chunks results0 score_threshold
  if chunks = [] then none
  else some (String.intercalate chunkSeparator chunks)

end Fastapi

/-- Modelled from the spec, §4.3 Retrieval Filter (the code under `src/` is
the loop/comprehension in the two files; this definition follows the spec's
words for the refinement comparison): keep a hit iff `score >= threshold`,
preserve order, format each kept hit as `"SOURCE: {source}\n{text}"`, join
with `"\n\n---\n\n"`, absent iff zero hits kept. -/
def filterAndFormat (hits : List SearchHit) (threshold : ℚ) : Option String :=
  let kept := hits.filter (fun hit => hit.score ≥ threshold)
  if kept = [] then none
  else some (String.intercalate chunkSeparator
    (kept.map (fun hit => "SOURCE: " ++ hit.source ++ "\n" ++ hit.text)))

/-! ## Configuration loading (`utils.py` lines 8–39) -/

/-- Outcome of `open(config_file)` + `yaml.safe_load`: the file may be
missing (`FileNotFoundError`), malformed (`yaml.YAMLError`), or parse to a
mapping (with `yaml.safe_load(f) or {}` collapsing an empty file to the
empty mapping). -/
inductive FileLoadResult where
  | notFound
  | yamlError
  | parsed (cfg : List (String × String))
deriving DecidableEq

/-- From `utils.py` lines 16–19: `config_files_to_try`. -/
def config_files_to_try : List String := ["local_config.yml", "config.yml"]

/-- Python `base.update(new)` on dicts viewed as association lists:
keys already in `base` keep their position with the new value, new keys are
appended in order. -/
def dictUpdate (base new : List (String × String)) : List (String × String) :=
  (base.map (fun p =>
    match new.lookup p.1 with
    | some v => (p.1, v)
    | none => p)) ++
  new.filter (fun q => (base.lookup q.1).isNone)

/-- From `utils.py` lines 23–35: the `for config_file in config_files_to_try:`
loop over a file system `fs`; a successful load updates `final_config` and
breaks, either exception falls through to the next file. -/
def load_config_loop (fs : String → FileLoadResult) :
    List String → List (String × String) → List (String × String)
  | [], final_config => final_config
  | f :: rest, final_config =>
      match fs f with
      | .parsed file_config => dictUpdate final_config file_config
      | .notFound => load_config_loop fs rest final_config
      | .yamlError => load_config_loop fs rest final_config

/-- From `utils.py` lines 8–39: `load_config` over a file system `fs`;
`final_config` starts empty and is returned as-is when no file loads. -/
def load_config (fs : String → FileLoadResult) : List (String × String) :=
  load_config_loop fs config_files_to_try []

/-- The keys the spec (§3 Config) requires of a resolved configuration, as
they are actually read in `Chatbot.py`/`Fastapi.py`. -/
def requiredConfigKeys : List String :=
  ["ollama_host", "ollama_port", "chat_model", "embedding_model",
   "milvus_path", "collection_name", "top_k", "score_threshold"]

/-! ## Facts about the Python slices -/

theorem pySliceTo_natCast {α : Type} (l : List α) (n : Nat) :
    pySliceTo l (n : Int) = l.take n := by
  simp [pySliceTo]

theorem pySliceFrom_natCast {α : Type} (l : List α) (n : Nat) :
    pySliceFrom l (n : Int) = l.drop n := by
  simp [pySliceFrom]

theorem pyLastSlice_zero {α : Type} (l : List α) : pyLastSlice l 0 = l := by
  simp [pyLastSlice, pySliceFrom]

theorem pyLastSlice_pos {α : Type} (l : List α) (k : Nat) (hk : 0 < k) :
    pyLastSlice l k = l.drop (l.length - k) := by
  have h : ¬ ((0 : Int) ≤ -(k : Int)) := by omega
  simp [pyLastSlice, pySliceFrom, h]

theorem pyLastSlice_length_le {α : Type} (l : List α) (k : Nat) :
    (pyLastSlice l k).length ≤ l.length := by
  rcases Nat.eq_zero_or_pos k with hk | hk
  · subst hk; rw [pyLastSlice_zero]
  · rw [pyLastSlice_pos l k hk]; simp

theorem pyLastSlice_length_le_of_pos {α : Type} (l : List α) (k : Nat)
    (hk : 0 < k) : (pyLastSlice l k).length ≤ k := by
  rw [pyLastSlice_pos l k hk]; simp; omega

theorem pyLastSlice_length_of_le {α : Type} (l : List α) (k : Nat)
    (hk : 0 < k) (h : k ≤ l.length) : (pyLastSlice l k).length = k := by
  rw [pyLastSlice_pos l k hk]; simp; omega

theorem pyLastSlice_subset {α : Type} (l : List α) (k : Nat) :
    pyLastSlice l k ⊆ l := by
  rcases Nat.eq_zero_or_pos k with hk | hk
  · subst hk; rw [pyLastSlice_zero]; exact fun a ha => ha
  · rw [pyLastSlice_pos l k hk]; exact List.drop_subset _ _


/-! ## Words produced by splitting are whitespace-free and non-empty -/

/-- A word as produced by `pyWords`: non-empty, no whitespace characters.
`' '.join`-ing such words and re-splitting recovers them exactly. -/
def GoodWord (w : String) : Prop :=
  w.data ≠ [] ∧ ∀ c ∈ w.data, c.isWhitespace = false

theorem splitPredAux_no_sep (p : Char → Bool) :
    ∀ (l acc : List Char), (∀ c ∈ acc, p c = false) →
      ∀ piece ∈ splitPredAux p l acc, ∀ c ∈ piece, p c = false := by
  intro l
  induction l with
  | nil =>
      intro acc hacc piece hpiece c hc
      simp only [splitPredAux, List.mem_singleton] at hpiece
      subst hpiece
      exact hacc c (List.mem_reverse.mp hc)
  | cons a l ih =>
      intro acc hacc piece hpiece c hc
      by_cases ha : p a = true
      · rw [splitPredAux, if_pos ha] at hpiece
        rcases List.mem_cons.mp hpiece with h | h
        · subst h; exact hacc c (List.mem_reverse.mp hc)
        · exact ih [] (by simp) piece h c hc
      · rw [splitPredAux, if_neg ha] at hpiece
        refine ih (a :: acc) ?_ piece hpiece c hc
        intro d hd
        rcases List.mem_cons.mp hd with h | h
        · subst h; simpa using ha
        · exact hacc d h

theorem string_mk_data (s : String) : String.mk s.data = s := by
  cases s; rfl

theorem pyWords_good (s : String) : ∀ w ∈ pyWords s, GoodWord w := by
  intro w hw
  unfold pyWords at hw
  simp only [List.mem_map, List.mem_filter, ne_eq, decide_not] at hw
  obtain ⟨piece, ⟨hmem, hne⟩, rfl⟩ := hw
  refine ⟨?_, ?_⟩
  · simpa using hne
  · intro c hc
    exact splitPredAux_no_sep Char.isWhitespace s.data [] (by simp) piece hmem c hc

/-! ## Round trip: splitting a single-space join recovers the words -/

theorem splitPredAux_append_no_sep (p : Char → Bool) :
    ∀ (w l acc : List Char), (∀ c ∈ w, p c = false) →
      splitPredAux p (w ++ l) acc = splitPredAux p l (w.reverse ++ acc) := by
  intro w
  induction w with
  | nil => intro l acc _; simp
  | cons c w ih =>
      intro l acc h
      have hc : p c = false := h c (by simp)
      rw [List.cons_append, splitPredAux, if_neg (by simp [hc])]
      rw [ih l (c :: acc) (fun d hd => h d (by simp [hd]))]
      simp

theorem splitPredAux_cons_sep (p : Char → Bool) (c : Char) (l acc : List Char)
    (hc : p c = true) :
    splitPredAux p (c :: l) acc = acc.reverse :: splitPredAux p l [] := by
  rw [splitPredAux, if_pos hc]

theorem data_append (a b : String) : (a ++ b).data = a.data ++ b.data := by
  cases a; cases b; rfl

theorem joinWords_cons_cons (w w2 : String) (ws : List String) :
    joinWords (w :: w2 :: ws) = w ++ " " ++ joinWords (w2 :: ws) := by
  rfl

theorem pyWords_single (w : String) (hw : GoodWord w) : pyWords w = [w] := by
  unfold pyWords splitPredChars
  have h := splitPredAux_append_no_sep Char.isWhitespace w.data [] [] hw.2
  rw [List.append_nil] at h
  rw [h]
  simp only [splitPredAux, List.append_nil, List.reverse_reverse]
  rw [List.filter_cons, if_pos (by simpa using hw.1)]
  simp [string_mk_data]

theorem pyWords_joinWords : ∀ (ws : List String), (∀ w ∈ ws, GoodWord w) →
    pyWords (joinWords ws) = ws := by
  intro ws
  induction ws with
  | nil => intro _; rfl
  | cons w ws ih =>
      intro h
      cases ws with
      | nil => exact pyWords_single w (h w (by simp))
      | cons w2 ws' =>
          have hw : GoodWord w := h w (by simp)
          have hrest : ∀ x ∈ w2 :: ws', GoodWord x := fun x hx => h x (by simp [hx])
          rw [joinWords_cons_cons]
          unfold pyWords splitPredChars
          rw [data_append, data_append]
          rw [List.append_assoc]
          rw [splitPredAux_append_no_sep Char.isWhitespace w.data _ [] hw.2]
          have hsp : (" " : String).data = [' '] := rfl
          rw [hsp, List.singleton_append,
            splitPredAux_cons_sep Char.isWhitespace ' ' _ _ (by decide)]
          rw [List.append_nil, List.reverse_reverse]
          rw [List.filter_cons, if_pos (by simpa using hw.1)]
          rw [List.map_cons, string_mk_data]
          have := ih hrest
          unfold pyWords splitPredChars at this
          rw [this]

/-! ## The real chunker is the word-level shadow composed with `joinWords` -/

theorem innerLoop_eq_W (cs ov : Nat) :
    ∀ (f : Nat) (pw cc : List String) (cl : Int),
      innerLoop cs ov f pw cc cl =
        (innerLoopW cs ov f pw cc cl).map
          (fun r => (r.1.map joinWords, r.2.1, r.2.2)) := by
  intro f
  induction f with
  | zero =>
      intro pw cc cl
      cases pw <;> simp [innerLoop, innerLoopW]
  | succ f ih =>
      intro pw cc cl
      cases pw with
      | nil => simp [innerLoop, innerLoopW]
      | cons h t =>
          simp only [innerLoop, innerLoopW]
          split
          · rw [ih]
            cases innerLoopW cs ov f (pySliceFrom (h :: t) ((cs : Int) - cl))
                (pyLastSlice (cc ++ pySliceTo (h :: t) ((cs : Int) - cl)) ov)
                ((pyLastSlice (cc ++ pySliceTo (h :: t) ((cs : Int) - cl)) ov).length : Int) with
            | none => rfl
            | some r => rfl
          · exact ih _ _ _

theorem paraLoop_eq_W (cs ov fuel : Nat) :
    ∀ (paras : List (List String)) (cc : List String) (cl : Int),
      paraLoop cs ov fuel paras cc cl =
        (paraLoopW cs ov fuel paras cc cl).map
          (fun r => (r.1.map joinWords, r.2.1, r.2.2)) := by
  intro paras
  induction paras with
  | nil => intro cc cl; rfl
  | cons para rest ih =>
      intro cc cl
      rw [paraLoop, paraLoopW]
      split
      · exact ih _ _
      · split
        · rw [innerLoop_eq_W]
          cases innerLoopW cs ov fuel para cc cl with
          | none => rfl
          | some r1 =>
              rw [Option.map_some', Option.some_bind, Option.some_bind, ih]
              cases paraLoopW cs ov fuel rest r1.2.1 r1.2.2 with
              | none => rfl
              | some r2 => simp [List.map_append]
        · rw [innerLoop_eq_W]
          cases innerLoopW cs ov fuel para (pyLastSlice cc ov)
              ((pyLastSlice cc ov).length : Int) with
          | none => rfl
          | some r1 =>
              rw [Option.map_some', Option.some_bind, Option.some_bind, ih]
              cases paraLoopW cs ov fuel rest r1.2.1 r1.2.2 with
              | none => rfl
              | some r2 => simp [List.map_append]

theorem semantic_chunker_eq_W (text : String) (cs ov fuel : Nat) :
    semantic_chunker text cs ov fuel =
      (semantic_chunkerW text cs ov fuel).map (List.map joinWords) := by
  unfold semantic_chunker semantic_chunkerW
  rw [paraLoop_eq_W]
  cases paraLoopW cs ov fuel ((paragraphsOf text).map pyWords) [] 0 with
  | none => rfl
  | some r =>
      by_cases hr : r.2.1 = [] <;> simp [hr, List.map_append]

/-! ## Structural invariants of the accumulator loops -/

/-- Predicate: `b` extends `a` on the right. -/
def ExtTo (a b : List String) : Prop := ∃ t, b = a ++ t

theorem ExtTo.refl (a : List String) : ExtTo a a := ⟨[], by simp⟩

theorem ExtTo.trans {a b c : List String} (h1 : ExtTo a b) (h2 : ExtTo b c) :
    ExtTo a c := by
  obtain ⟨t1, rfl⟩ := h1
  obtain ⟨t2, rfl⟩ := h2
  exact ⟨t1 ++ t2, by simp⟩

/-- Every word of `l` is non-empty and whitespace-free. -/
def GoodWords (l : List String) : Prop := ∀ w ∈ l, GoodWord w

theorem GoodWords.sub {l l' : List String} (h : GoodWords l) (hsub : l' ⊆ l) :
    GoodWords l' := fun w hw => h w (hsub hw)

theorem GoodWords.app {a b : List String} (ha : GoodWords a)
    (hb : GoodWords b) : GoodWords (a ++ b) := by
  intro w hw
  rcases List.mem_append.mp hw with h | h
  · exact ha w h
  · exact hb w h

/-- The overlap chain left behind by the flushes: starting from accumulator
`cc`, the first emitted chunk extends `cc`, each later emitted chunk
extends the `overlap`-retention (`pyLastSlice · ov`) of its predecessor,
and the final accumulator extends the retention of the last emitted
chunk. -/
def ChainFrom (ov : Nat) : List String → List (List String) → List String → Prop
  | cc, [], ccf => ExtTo cc ccf
  | cc, e :: em, ccf => ExtTo cc e ∧ ChainFrom ov (pyLastSlice e ov) em ccf

theorem ChainFrom.weaken {ov : Nat} {a b ccf : List String}
    {em : List (List String)} (hab : ExtTo a b) (h : ChainFrom ov b em ccf) :
    ChainFrom ov a em ccf := by
  cases em with
  | nil => exact hab.trans h
  | cons e em => exact ⟨hab.trans h.1, h.2⟩

theorem ChainFrom.glue {ov : Nat} {a b c : List String}
    {em1 em2 : List (List String)}
    (h1 : ChainFrom ov a em1 b) (h2 : ChainFrom ov b em2 c) :
    ChainFrom ov a (em1 ++ em2) c := by
  induction em1 generalizing a with
  | nil => exact h2.weaken h1
  | cons e em1 ih => exact ⟨h1.1, ih h1.2⟩

/-- Everything the inner `while` loop preserves and produces: the running
length stays synchronised with the accumulator and bounded by
`chunk_size`, the words stay good, every emitted chunk has at most
`chunk_size` words, and the emitted chunks form the overlap chain. -/
theorem innerLoopW_inv (cs ov : Nat) :
    ∀ (f : Nat) (pw cc : List String) (cl : Int)
      (em : List (List String)) (ccf : List String) (clf : Int),
      cl = (cc.length : Int) → cc.length ≤ cs →
      GoodWords cc → GoodWords pw →
      innerLoopW cs ov f pw cc cl = some (em, ccf, clf) →
      clf = (ccf.length : Int) ∧ ccf.length ≤ cs ∧ GoodWords ccf ∧
        (∀ ws ∈ em, ws.length ≤ cs ∧ GoodWords ws) ∧
        ChainFrom ov cc em ccf := by
  intro f
  induction f with
  | zero =>
      intro pw cc cl em ccf clf hsync hle hgcc hgpw heq
      cases pw with
      | nil =>
          rw [innerLoopW] at heq
          simp only [Option.some.injEq, Prod.mk.injEq] at heq
          obtain ⟨rfl, rfl, rfl⟩ := heq
          exact ⟨hsync, hle, hgcc, by simp, ExtTo.refl cc⟩
      | cons h t => rw [innerLoopW] at heq; simp at heq
  | succ f ih =>
      intro pw cc cl em ccf clf hsync hle hgcc hgpw heq
      cases pw with
      | nil =>
          rw [innerLoopW] at heq
          simp only [Option.some.injEq, Prod.mk.injEq] at heq
          obtain ⟨rfl, rfl, rfl⟩ := heq
          exact ⟨hsync, hle, hgcc, by simp, ExtTo.refl cc⟩
      | cons h t =>
          simp only [innerLoopW] at heq
          split at heq
          case isFalse hguard => exact absurd (by omega) hguard
          case isTrue hguard =>
            have hrem : (cs : Int) - cl = ((cs - cc.length : Nat) : Int) := by
              omega
            rw [hrem, pySliceTo_natCast, pySliceFrom_natCast] at heq
            set slice := (h :: t).take (cs - cc.length) with hslice
            set cc1 := cc ++ slice with hcc1
            set pw1 := (h :: t).drop (cs - cc.length) with hpw1
            set cc2 := pyLastSlice cc1 ov with hcc2
            have hcc1len : cc1.length ≤ cs := by
              rw [hcc1, hslice]
              simp only [List.length_append, List.length_take]
              omega
            have hcc2len : cc2.length ≤ cs :=
              le_trans (hcc2 ▸ pyLastSlice_length_le cc1 ov) hcc1len
            have hgcc1 : GoodWords cc1 :=
              hcc1 ▸ hgcc.app (hgpw.sub (List.take_subset _ _))
            have hgcc2 : GoodWords cc2 :=
              hgcc1.sub (hcc2 ▸ pyLastSlice_subset cc1 ov)
            have hgpw1 : GoodWords pw1 :=
              hgpw.sub (hpw1 ▸ List.drop_subset _ _)
            cases hrec : innerLoopW cs ov f pw1 cc2 ((cc2.length : Nat) : Int) with
            | none => rw [hrec] at heq; simp at heq
            | some r =>
                obtain ⟨em', ccf', clf'⟩ := r
                rw [hrec] at heq
                simp only [Option.map_some', Option.some.injEq,
                  Prod.mk.injEq] at heq
                obtain ⟨rfl, rfl, rfl⟩ := heq
                obtain ⟨h1, h2, h3, h4, h5⟩ :=
                  ih pw1 cc2 _ em' ccf' clf' rfl hcc2len hgcc2 hgpw1 hrec
                refine ⟨h1, h2, h3, ?_, ?_⟩
                · intro ws hws
                  rcases List.mem_cons.mp hws with rfl | hws'
                  · exact ⟨hcc1len, hgcc1⟩
                  · exact h4 ws hws'
                · exact ⟨⟨slice, hcc1⟩, hcc2 ▸ h5⟩

/-- The paragraph loop preserves the same invariants and produces the same
chain structure as the inner loop. -/
theorem paraLoopW_inv (cs ov fuel : Nat) :
    ∀ (paras : List (List String)) (cc : List String) (cl : Int)
      (em : List (List String)) (ccf : List String) (clf : Int),
      cl = (cc.length : Int) → cc.length ≤ cs →
      GoodWords cc → (∀ para ∈ paras, GoodWords para) →
      paraLoopW cs ov fuel paras cc cl = some (em, ccf, clf) →
      clf = (ccf.length : Int) ∧ ccf.length ≤ cs ∧ GoodWords ccf ∧
        (∀ ws ∈ em, ws.length ≤ cs ∧ GoodWords ws) ∧
        ChainFrom ov cc em ccf := by
  intro paras
  induction paras with
  | nil =>
      intro cc cl em ccf clf hsync hle hgcc _ heq
      rw [paraLoopW] at heq
      simp only [Option.some.injEq, Prod.mk.injEq] at heq
      obtain ⟨rfl, rfl, rfl⟩ := heq
      exact ⟨hsync, hle, hgcc, by simp, ExtTo.refl cc⟩
  | cons para rest ih =>
      intro cc cl em ccf clf hsync hle hgcc hgparas heq
      have hgpara : GoodWords para := hgparas para (by simp)
      have hgrest : ∀ p ∈ rest, GoodWords p := fun p hp => hgparas p (by simp [hp])
      rw [paraLoopW] at heq
      split at heq
      case isTrue hfits =>
        have hsync' : cl + (para.length : Int) = (((cc ++ para).length : Nat) : Int) := by
          simp only [List.length_append]
          push_cast
          omega
        have hle' : (cc ++ para).length ≤ cs := by
          simp only [List.length_append]
          omega
        obtain ⟨h1, h2, h3, h4, h5⟩ :=
          ih (cc ++ para) (cl + (para.length : Int)) em ccf clf hsync' hle'
            (hgcc.app hgpara) hgrest heq
        exact ⟨h1, h2, h3, h4, h5.weaken ⟨para, rfl⟩⟩
      case isFalse hnofit =>
        split at heq
        case isTrue hccnil =>
          subst hccnil
          cases hinner : innerLoopW cs ov fuel para [] cl with
          | none => rw [hinner] at heq; simp at heq
          | some r1 =>
              obtain ⟨em1, cc1, cl1⟩ := r1
              rw [hinner] at heq
              simp only [Option.some_bind] at heq
              cases hrest : paraLoopW cs ov fuel rest cc1 cl1 with
              | none => rw [hrest] at heq; simp at heq
              | some r2 =>
                  obtain ⟨em2, cc2, cl2⟩ := r2
                  rw [hrest] at heq
                  simp only [Option.map_some', Option.some.injEq,
                    Prod.mk.injEq] at heq
                  obtain ⟨rfl, rfl, rfl⟩ := heq
                  obtain ⟨i1, i2, i3, i4, i5⟩ :=
                    innerLoopW_inv cs ov fuel para [] cl em1 cc1 cl1
                      (by simpa using hsync) (by simp) (by intro w hw; simp at hw)
                      hgpara hinner
                  obtain ⟨r1', r2', r3', r4', r5'⟩ :=
                    ih cc1 cl1 em2 cc2 cl2 i1 i2 i3 hgrest hrest
                  refine ⟨r1', r2', r3', ?_, ?_⟩
                  · intro ws hws
                    rcases List.mem_append.mp hws with h | h
                    · exact i4 ws h
                    · exact r4' ws h
                  · exact i5.glue r5'
        case isFalse hccne =>
          cases hinner : innerLoopW cs ov fuel para (pyLastSlice cc ov)
              (((pyLastSlice cc ov).length : Nat) : Int) with
          | none => rw [hinner] at heq; simp at heq
          | some r1 =>
              obtain ⟨em1, cc1, cl1⟩ := r1
              rw [hinner] at heq
              simp only [Option.some_bind] at heq
              cases hrest : paraLoopW cs ov fuel rest cc1 cl1 with
              | none => rw [hrest] at heq; simp at heq
              | some r2 =>
                  obtain ⟨em2, cc2, cl2⟩ := r2
                  rw [hrest] at heq
                  simp only [Option.map_some', Option.some.injEq,
                    Prod.mk.injEq] at heq
                  obtain ⟨rfl, rfl, rfl⟩ := heq
                  obtain ⟨i1, i2, i3, i4, i5⟩ :=
                    innerLoopW_inv cs ov fuel para (pyLastSlice cc ov) _ em1 cc1 cl1
                      rfl (le_trans (pyLastSlice_length_le cc ov) hle)
                      (hgcc.sub (pyLastSlice_subset cc ov)) hgpara hinner
                  obtain ⟨r1', r2', r3', r4', r5'⟩ :=
                    ih cc1 cl1 em2 cc2 cl2 i1 i2 i3 hgrest hrest
                  refine ⟨r1', r2', r3', ?_, ?_⟩
                  · intro ws hws
                    rcases List.mem_cons.mp hws with rfl | hws'
                    · exact ⟨hle, hgcc⟩
                    · rcases List.mem_append.mp hws' with h | h
                      · exact i4 ws h
                      · exact r4' ws h
                  · exact ⟨ExtTo.refl cc, i5.glue r5'⟩

/-- Extract the adjacent-pair relation from a chain: in the full emitted
list with the final accumulator appended, every adjacent pair `a, b`
satisfies `ExtTo (pyLastSlice a ov) b`. -/
theorem ChainFrom.adjacent {ov : Nat} :
    ∀ (em : List (List String)) (cc ccf : List String),
      ChainFrom ov cc em ccf →
      ∀ (pre : List (List String)) (a b : List String)
        (post : List (List String)),
        em ++ [ccf] = pre ++ a :: b :: post →
        ExtTo (pyLastSlice a ov) b := by
  intro em
  induction em with
  | nil =>
      intro cc ccf _ pre a b post hdec
      exfalso
      have := congrArg List.length hdec
      simp at this
      omega
  | cons e em ih =>
      intro cc ccf hchain pre a b post hdec
      obtain ⟨hext, hrest⟩ := hchain
      cases pre with
      | nil =>
          simp only [List.nil_append, List.cons_append, List.cons.injEq] at hdec
          obtain ⟨rfl, hdec2⟩ := hdec
          cases em with
          | nil =>
              simp only [List.nil_append, List.cons.injEq] at hdec2
              obtain ⟨rfl, -⟩ := hdec2
              exact hrest
          | cons e2 em' =>
              simp only [List.cons_append, List.cons.injEq] at hdec2
              obtain ⟨rfl, -⟩ := hdec2
              exact hrest.1
      | cons p pre' =>
          simp only [List.cons_append, List.cons.injEq] at hdec
          obtain ⟨rfl, hdec2⟩ := hdec
          exact ih (pyLastSlice e ov) ccf hrest pre' a b post hdec2

/-! ## Termination under valid parameters (`0 < overlap < chunk_size`) -/

/-- With `0 < ov < cs` the inner loop consumes at least one paragraph word
per iteration, so fuel `pw.length` suffices. -/
theorem innerLoopW_total (cs ov : Nat) (hov : 0 < ov) (hcs : ov < cs) :
    ∀ (f : Nat) (pw cc : List String) (cl : Int),
      cl = (cc.length : Int) → cc.length ≤ ov → pw.length ≤ f →
      ∃ r, innerLoopW cs ov f pw cc cl = some r := by
  intro f
  induction f with
  | zero =>
      intro pw cc cl _ _ hlen
      have : pw = [] := List.length_eq_zero.mp (Nat.le_zero.mp hlen)
      subst this
      exact ⟨([], cc, cl), by rw [innerLoopW]⟩
  | succ f ih =>
      intro pw cc cl hsync hle hlen
      cases pw with
      | nil => exact ⟨([], cc, cl), by rw [innerLoopW]⟩
      | cons h t =>
          have hrem : (cs : Int) - cl = ((cs - cc.length : Nat) : Int) := by
            omega
          simp only [innerLoopW]
          rw [if_pos (by omega), hrem, pySliceTo_natCast, pySliceFrom_natCast]
          set cc1 := cc ++ (h :: t).take (cs - cc.length) with hcc1
          set pw1 := (h :: t).drop (cs - cc.length) with hpw1
          have hpw1len : pw1.length ≤ f := by
            rw [hpw1, List.length_drop]
            simp only [List.length_cons]
            simp only [List.length_cons] at hlen
            omega
          obtain ⟨r, hr⟩ := ih pw1 (pyLastSlice cc1 ov) _ rfl
            (pyLastSlice_length_le_of_pos cc1 ov hov) hpw1len
          rw [hr]
          exact ⟨_, rfl⟩

/-- With `0 < ov < cs`, fuel at least the longest paragraph's word count
makes the whole paragraph loop return. -/
theorem paraLoopW_total (cs ov fuel : Nat) (hov : 0 < ov) (hcs : ov < cs) :
    ∀ (paras : List (List String)) (cc : List String) (cl : Int),
      cl = (cc.length : Int) → cc.length ≤ cs →
      GoodWords cc → (∀ para ∈ paras, GoodWords para) →
      (∀ para ∈ paras, para.length ≤ fuel) →
      ∃ r, paraLoopW cs ov fuel paras cc cl = some r := by
  intro paras
  induction paras with
  | nil => intro cc cl _ _ _ _ _; exact ⟨([], cc, cl), by rw [paraLoopW]⟩
  | cons para rest ih =>
      intro cc cl hsync hle hgcc hgparas hflen
      have hgpara : GoodWords para := hgparas para (by simp)
      have hgrest : ∀ p ∈ rest, GoodWords p := fun p hp => hgparas p (by simp [hp])
      have hfrest : ∀ p ∈ rest, p.length ≤ fuel := fun p hp => hflen p (by simp [hp])
      rw [paraLoopW]
      split
      case isTrue hfits =>
        exact ih (cc ++ para) _
          (by simp only [List.length_append]; push_cast; omega)
          (by simp only [List.length_append]; omega)
          (hgcc.app hgpara) hgrest hfrest
      case isFalse hnofit =>
        split
        case isTrue hccnil =>
          subst hccnil
          obtain ⟨r1, hr1⟩ := innerLoopW_total cs ov hov hcs fuel para [] cl
            (by simpa using hsync) (by simp) (hflen para (by simp))
          obtain ⟨em1, cc1, cl1⟩ := r1
          obtain ⟨i1, i2, i3, -, -⟩ :=
            innerLoopW_inv cs ov fuel para [] cl em1 cc1 cl1
              (by simpa using hsync) (by simp) (by intro w hw; simp at hw)
              hgpara hr1
          obtain ⟨r2, hr2⟩ := ih cc1 cl1 i1 i2 i3 hgrest hfrest
          rw [hr1]
          simp only [Option.some_bind]
          rw [hr2]
          exact ⟨_, rfl⟩
        case isFalse hccne =>
          obtain ⟨r1, hr1⟩ := innerLoopW_total cs ov hov hcs fuel para
            (pyLastSlice cc ov) _ rfl
            (pyLastSlice_length_le_of_pos cc ov hov) (hflen para (by simp))
          obtain ⟨em1, cc1, cl1⟩ := r1
          obtain ⟨i1, i2, i3, -, -⟩ :=
            innerLoopW_inv cs ov fuel para (pyLastSlice cc ov) _ em1 cc1 cl1
              rfl (le_trans (pyLastSlice_length_le cc ov) hle)
              (hgcc.sub (pyLastSlice_subset cc ov)) hgpara hr1
          obtain ⟨r2, hr2⟩ := ih cc1 cl1 i1 i2 i3 hgrest hfrest
          rw [hr1]
          simp only [Option.some_bind]
          rw [hr2]
          exact ⟨_, rfl⟩

/-! ## Small documents: everything accumulates in one pass -/

/-- When the accumulator plus all remaining paragraphs fit inside
`chunk_size`, Case 1 fires for every paragraph: nothing is emitted and the
accumulator ends as the concatenation of everything. -/
theorem paraLoopW_all_fit (cs ov fuel : Nat) :
    ∀ (paras : List (List String)) (cc : List String) (cl : Int),
      cl = (cc.length : Int) →
      cc.length + (paras.map List.length).sum ≤ cs →
      paraLoopW cs ov fuel paras cc cl =
        some ([], cc ++ paras.flatten,
          cl + ((paras.map List.length).sum : Int)) := by
  intro paras
  induction paras with
  | nil =>
      intro cc cl _ _
      rw [paraLoopW]
      simp
  | cons para rest ih =>
      intro cc cl hsync hfit
      simp only [List.map_cons, List.sum_cons] at hfit
      rw [paraLoopW, if_pos (by omega)]
      rw [ih (cc ++ para) _ (by simp only [List.length_append]; push_cast; omega)
        (by simp only [List.length_append]; omega)]
      simp only [List.flatten_cons, List.append_assoc, List.map_cons,
        List.sum_cons, Option.some.injEq, Prod.mk.injEq]
      refine ⟨trivial, trivial, ?_⟩
      push_cast
      ring

/-! ## Divergence at `overlap = 0` -/

/-- The stuck configuration of the inner loop at `overlap = 0`: once
`current_length` equals `chunk_size` with words still unconsumed,
`remaining = 0`, nothing moves, `current_chunk[-0:]` keeps everything, and
the loop repeats the same state forever (consuming one fuel per turn). -/
theorem innerLoopW_stuck (cs : Nat) :
    ∀ (f : Nat) (pw cc : List String), pw ≠ [] → cc.length = cs →
      innerLoopW cs 0 f pw cc (cs : Int) = none := by
  intro f
  induction f with
  | zero =>
      intro pw cc hpw _
      cases pw with
      | nil => exact absurd rfl hpw
      | cons h t => rw [innerLoopW]
  | succ f ih =>
      intro pw cc hpw hlen
      cases pw with
      | nil => exact absurd rfl hpw
      | cons h t =>
          simp only [innerLoopW]
          rw [if_pos (by omega)]
          have h0 : (cs : Int) - (cs : Int) = ((0 : Nat) : Int) := by omega
          rw [h0, pySliceTo_natCast, pySliceFrom_natCast, List.take_zero,
            List.drop_zero, List.append_nil, pyLastSlice_zero, hlen]
          rw [ih (h :: t) cc (by simp) hlen]
          rfl

/-- At `overlap = 0`, a single paragraph with more than `chunk_size` words
never lets the inner loop finish, whatever the fuel. -/
theorem innerLoopW_zero_div (cs : Nat) (pw : List String)
    (hpw : cs < pw.length) :
    ∀ f, innerLoopW cs 0 f pw [] 0 = none := by
  intro f
  cases f with
  | zero =>
      cases pw with
      | nil => simp at hpw
      | cons h t => rw [innerLoopW]
  | succ f =>
      cases pw with
      | nil => simp at hpw
      | cons h t =>
          simp only [innerLoopW]
          rw [if_pos (by omega)]
          have h0 : (cs : Int) - (0 : Int) = ((cs : Nat) : Int) := by omega
          rw [h0, pySliceTo_natCast, pySliceFrom_natCast, List.nil_append,
            pyLastSlice_zero]
          have htake : ((h :: t).take cs).length = cs := by
            rw [List.length_take]
            omega
          have hdrop : (h :: t).drop cs ≠ [] := by
            intro hd
            have h2 : ((h :: t).drop cs).length = 0 := by rw [hd]; rfl
            rw [List.length_drop] at h2
            omega
          rw [htake]
          rw [innerLoopW_stuck cs f ((h :: t).drop cs) ((h :: t).take cs)
            hdrop htake]
          rfl

/-! ## Packaging: what any successful chunker run satisfies -/

/-- A successful run of the real chunker is a successful run of the
word-level shadow with the chunks joined. -/
theorem semantic_chunker_some (text : String) (cs ov fuel : Nat)
    (chunks : List String)
    (h : semantic_chunker text cs ov fuel = some chunks) :
    ∃ chunksW, semantic_chunkerW text cs ov fuel = some chunksW ∧
      chunks = chunksW.map joinWords := by
  rw [semantic_chunker_eq_W] at h
  cases hW : semantic_chunkerW text cs ov fuel with
  | none => rw [hW] at h; simp at h
  | some w =>
      rw [hW] at h
      simp only [Option.map_some', Option.some.injEq] at h
      exact ⟨w, rfl, h.symm⟩

/-- Structure of a successful shadow run: every chunk has at most
`chunk_size` words, all words are good, and each adjacent pair `a, b` of
chunks satisfies `ExtTo (pyLastSlice a ov) b`. -/
theorem semantic_chunkerW_spec (text : String) (cs ov fuel : Nat)
    (chunksW : List (List String))
    (h : semantic_chunkerW text cs ov fuel = some chunksW) :
    (∀ ws ∈ chunksW, ws.length ≤ cs ∧ GoodWords ws) ∧
    (∀ (pre : List (List String)) (a b : List String)
      (post : List (List String)),
      chunksW = pre ++ a :: b :: post → ExtTo (pyLastSlice a ov) b) := by
  unfold semantic_chunkerW at h
  cases hP : paraLoopW cs ov fuel ((paragraphsOf text).map pyWords) [] 0 with
  | none => rw [hP] at h; simp at h
  | some r =>
      obtain ⟨em, ccf, clf⟩ := r
      rw [hP] at h
      simp only [Option.map_some', Option.some.injEq] at h
      obtain ⟨i1, i2, i3, i4, i5⟩ :=
        paraLoopW_inv cs ov fuel ((paragraphsOf text).map pyWords) [] 0 em ccf clf
          (by simp) (by simp) (by intro w hw; simp at hw)
          (by intro para hpara
              obtain ⟨p, -, rfl⟩ := List.mem_map.mp hpara
              exact fun w hw => pyWords_good p w hw)
          hP
      subst h
      constructor
      · intro ws hws
        rcases List.mem_append.mp hws with hmem | hmem
        · exact i4 ws hmem
        · by_cases hccf : ccf = []
          · rw [if_pos hccf] at hmem
            simp at hmem
          · rw [if_neg hccf] at hmem
            simp only [List.mem_singleton] at hmem
            subst hmem
            exact ⟨i2, i3⟩
      · intro pre a b post hdec
        by_cases hccf : ccf = []
        · rw [if_pos hccf, List.append_nil] at hdec
          refine ChainFrom.adjacent em [] ccf i5 pre a b (post ++ [ccf]) ?_
          rw [hdec]
          simp
        · rw [if_neg hccf] at hdec
          exact ChainFrom.adjacent em [] ccf i5 pre a b post hdec

/-- The words of the whole document, paragraph by paragraph, in order. -/
def docWords (text : String) : List String :=
  ((paragraphsOf text).map pyWords).flatten

/-- The first `n` words. -/
def firstWords (n : Nat) (l : List String) : List String := l.take n

/-- The last `n` words (all of them when `l` has fewer than `n`). -/
def lastWords (n : Nat) (l : List String) : List String :=
  l.drop (l.length - n)

/-- Decompose an adjacent pair in a `joinWords`-image back to an adjacent
pair of word lists. -/
theorem map_joinWords_decomp :
    ∀ (lW : List (List String)) (pre : List String) (c1 c2 : String)
      (post : List String),
      lW.map joinWords = pre ++ c1 :: c2 :: post →
      ∃ preW a b postW, lW = preW ++ a :: b :: postW ∧
        joinWords a = c1 ∧ joinWords b = c2 := by
  intro lW
  induction lW with
  | nil =>
      intro pre c1 c2 post h
      exfalso
      have := congrArg List.length h
      simp at this
      omega
  | cons x lW ih =>
      intro pre c1 c2 post h
      cases pre with
      | nil =>
          simp only [List.map_cons, List.nil_append, List.cons.injEq] at h
          obtain ⟨h1, h2⟩ := h
          cases lW with
          | nil => simp at h2
          | cons y lW' =>
              simp only [List.map_cons, List.cons.injEq] at h2
              obtain ⟨h3, -⟩ := h2
              exact ⟨[], x, y, lW', by simp, h1, h3⟩
      | cons p pre' =>
          simp only [List.map_cons, List.cons_append, List.cons.injEq] at h
          obtain ⟨-, h2⟩ := h
          obtain ⟨preW, a, b, postW, hdec, hc1, hc2⟩ := ih pre' c1 c2 post h2
          exact ⟨x :: preW, a, b, postW, by simp [hdec], hc1, hc2⟩

/-! ## Claim theorems: retrieval filter, configuration, error handling -/

/-- The accumulation loop of `Chatbot.retrieve_context` is filter-then-map. -/
theorem relevant_chunks_loop_eq (threshold : ℚ) :
    ∀ hits : List SearchHit,
      Chatbot.relevant_chunks_loop threshold hits =
        (hits.filter (fun h => h.score ≥ threshold)).map
          (fun h => "SOURCE: " ++ h.source ++ "\n" ++ h.text) := by
  intro hits
  induction hits with
  | nil => rfl
  | cons h rest ih =>
      rw [Chatbot.relevant_chunks_loop]
      by_cases hs : h.score ≥ threshold
      · rw [if_pos hs, List.filter_cons, if_pos (by simpa using hs),
          List.map_cons, ih]
      · rw [if_neg hs, List.filter_cons, if_neg (by simpa using hs), ih]

/-- C1: for every finite hit list and threshold, both implementations of
the retrieval filter keep exactly the hits with `score >= threshold`
(boundary inclusive), in original order, format each kept hit as
`"SOURCE: " ++ source ++ "\n" ++ text`, join them with `"\n\n---\n\n"`,
and return `none` exactly when zero hits are kept — i.e. both equal the
spec's `filterAndFormat`. -/
theorem C1_retrieval_filter_refines_spec (hits : List SearchHit)
    (threshold : ℚ) :
    Chatbot.filter_and_format hits threshold = filterAndFormat hits threshold ∧
    Fastapi.filter_and_format hits threshold = filterAndFormat hits threshold ∧
    (Chatbot.filter_and_format hits threshold = none ↔
      hits.filter (fun h => h.score ≥ threshold) = []) := by
  refine ⟨?_, ?_, ?_⟩
  · unfold Chatbot.filter_and_format filterAndFormat
    rw [relevant_chunks_loop_eq]
    by_cases hk : hits.filter (fun h => h.score ≥ threshold) = []
    · rw [hk]; simp
    · rw [if_neg (by simpa using hk), if_neg hk]
  · unfold Fastapi.filter_and_format filterAndFormat Fastapi.relevant_chunks
    by_cases hk : hits.filter (fun h => h.score ≥ threshold) = []
    · rw [hk]; simp
    · rw [if_neg (by simpa using hk), if_neg hk]
  · unfold Chatbot.filter_and_format
    rw [relevant_chunks_loop_eq]
    by_cases hk : hits.filter (fun h => h.score ≥ threshold) = []
    · rw [hk]
      simp
    · rw [if_neg (by simpa using hk)]
      simp [hk]

/-- C7: with both config files unloadable (missing or malformed),
`load_config` returns the *empty* configuration — no built-in defaults
exist in the code, so none of the required keys are present, contradicting
the function's own docstring ("Finally use hardcoded defaults") and the
spec. -/
theorem C7_load_config_no_defaults :
    load_config (fun _ => FileLoadResult.notFound) = [] ∧
    load_config (fun _ => FileLoadResult.yamlError) = [] ∧
    ∀ k ∈ requiredConfigKeys,
      (load_config (fun _ => FileLoadResult.notFound)).lookup k = none ∧
      (load_config (fun _ => FileLoadResult.yamlError)).lookup k = none := by
  refine ⟨rfl, rfl, ?_⟩
  intro k _
  exact ⟨rfl, rfl⟩

/-- C8: every external failure becomes a sentinel, never an exception:
a failing chat call makes `query_ollama` return the fixed apology string,
and a failure at any of the three retrieval steps (client construction,
embedding call, index search) makes `retrieve_context` return `none`. -/
theorem C8_external_errors_become_sentinels :
    (∀ (chat : String → Except String String) (query context e : String),
      chat (Chatbot.ragPrompt query context) = .error e →
      Chatbot.query_ollama chat query context =
        "Sorry, I encountered an error") ∧
    (∀ (embeddings : String → Except String (List ℚ))
      (search : List ℚ → Except String (List SearchHit))
      (t : ℚ) (q e : String),
      Chatbot.retrieve_context (.error e) embeddings search t q = none) ∧
    (∀ (embeddings : String → Except String (List ℚ))
      (search : List ℚ → Except String (List SearchHit))
      (t : ℚ) (q e : String),
      embeddings q = .error e →
      Chatbot.retrieve_context (.ok ()) embeddings search t q = none) ∧
    (∀ (embeddings : String → Except String (List ℚ))
      (search : List ℚ → Except String (List SearchHit))
      (t : ℚ) (q e : String) (v : List ℚ),
      embeddings q = .ok v → search v = .error e →
      Chatbot.retrieve_context (.ok ()) embeddings search t q = none) := by
  refine ⟨?_, ?_, ?_, ?_⟩
  · intro chat query context e hfail
    unfold Chatbot.query_ollama
    rw [hfail]
  · intro embeddings search t q e
    rfl
  · intro embeddings search t q e hfail
    simp [Chatbot.retrieve_context, hfail]
  · intro embeddings search t q e v hv hfail
    simp [Chatbot.retrieve_context, hv, hfail]

/-- Witness for C8 at concrete failing collaborators. -/
theorem C8_witness :
    Chatbot.query_ollama (fun _ => .error "down") "q" "ctx" =
      "Sorry, I encountered an error" ∧
    Chatbot.retrieve_context (.error "down") (fun _ => .ok [])
      (fun _ => .ok []) 0 "q" = none ∧
    Chatbot.retrieve_context (.ok ()) (fun _ => .error "down")
      (fun _ => .ok []) 0 "q" = none ∧
    Chatbot.retrieve_context (.ok ()) (fun _ => .ok [])
      (fun _ => .error "down") 0 "q" = none :=
  ⟨C8_external_errors_become_sentinels.1 _ "q" "ctx" "down" rfl,
   C8_external_errors_become_sentinels.2.1 _ _ 0 "q" "down",
   C8_external_errors_become_sentinels.2.2.1 _ _ 0 "q" "down" rfl,
   C8_external_errors_become_sentinels.2.2.2 _ _ 0 "q" "down" [] rfl rfl⟩

/-! ## Claim theorems: the chunker -/

/-- C2: a document whose total word count (over all non-empty paragraphs)
is at most `chunk_size` yields exactly one chunk — all the document's
words in order, joined by single spaces.  A document has non-empty text
(spec §3), hence at least one word, captured by `docWords text ≠ []`. -/
theorem C2_small_document_single_chunk (text : String) (cs ov fuel : Nat)
    (_hcs : 0 < cs) (hne : docWords text ≠ [])
    (hfit : (docWords text).length ≤ cs) :
    semantic_chunker text cs ov fuel = some [joinWords (docWords text)] := by
  simp only [docWords] at hne hfit ⊢
  unfold semantic_chunker
  rw [paraLoop_eq_W]
  rw [paraLoopW_all_fit cs ov fuel ((paragraphsOf text).map pyWords) [] 0
    (by simp)
    (by simp only [List.length_nil, Nat.zero_add]
        rw [← List.length_flatten]
        exact hfit)]
  simp only [Option.map_some', List.nil_append]
  rw [if_neg hne]
  simp

/-- Witness for C2 on a two-word document. -/
theorem C2_witness :
    0 < 5 ∧ docWords "hello world" ≠ [] ∧
    (docWords "hello world").length ≤ 5 ∧
    semantic_chunker "hello world" 5 1 0 =
      some [joinWords (docWords "hello world")] :=
  ⟨by decide, by decide, by decide,
   C2_small_document_single_chunk "hello world" 5 1 0 (by decide) (by decide)
     (by decide)⟩

/-- C5: with `chunk_size > 0` and `overlap < chunk_size`, every chunk any
successful run returns has at most `chunk_size` words. -/
theorem C5_chunk_word_count_bounded (text : String) (cs ov fuel : Nat)
    (_hcs : 0 < cs) (_hov : ov < cs) (chunks : List String)
    (h : semantic_chunker text cs ov fuel = some chunks) :
    ∀ c ∈ chunks, (pyWords c).length ≤ cs := by
  obtain ⟨chunksW, hW, rfl⟩ := semantic_chunker_some text cs ov fuel chunks h
  have hspec := (semantic_chunkerW_spec text cs ov fuel chunksW hW).1
  intro c hc
  obtain ⟨ws, hws, rfl⟩ := List.mem_map.mp hc
  obtain ⟨hlen, hgood⟩ := hspec ws hws
  rw [pyWords_joinWords ws hgood]
  exact hlen

/-- Witness for C5 on a six-word paragraph split with
`chunk_size = 4`, `overlap = 1`. -/
theorem C5_witness :
    semantic_chunker "a b c d e f" 4 1 9 = some ["a b c d", "d e f", "f"] ∧
    ∀ c ∈ ["a b c d", "d e f", "f"], (pyWords c).length ≤ 4 :=
  ⟨by decide,
   C5_chunk_word_count_bounded "a b c d e f" 4 1 9 (by decide) (by decide)
     ["a b c d", "d e f", "f"] (by decide)⟩

/-- C6: with `0 < overlap < chunk_size` the chunker terminates on every
input — fuel equal to the document's word count already suffices for the
inner `while` loop. -/
theorem C6_terminates_on_valid_parameters (text : String) (cs ov : Nat)
    (hov : 0 < ov) (hcs : ov < cs) :
    ∃ chunks,
      semantic_chunker text cs ov ((docWords text).length) = some chunks := by
  obtain ⟨r, hr⟩ := paraLoopW_total cs ov ((docWords text).length) hov hcs
    ((paragraphsOf text).map pyWords) [] 0 (by simp) (by simp)
    (fun w hw => absurd hw (List.not_mem_nil w))
    (by intro para hpara
        obtain ⟨p, -, rfl⟩ := List.mem_map.mp hpara
        exact fun w hw => pyWords_good p w hw)
    (by intro para hpara
        have h1 : para.length ∈ ((paragraphsOf text).map pyWords).map
            List.length := List.mem_map_of_mem List.length hpara
        have h2 := List.single_le_sum
          (fun x _ => Nat.zero_le x) para.length h1
        rw [docWords, List.length_flatten]
        exact h2)
  unfold semantic_chunker
  rw [paraLoop_eq_W, hr]
  exact ⟨_, rfl⟩

/-- Witness for C6 on a three-word document with
`chunk_size = 3`, `overlap = 1`. -/
theorem C6_witness :
    ∃ chunks,
      semantic_chunker "x y z" 3 1 ((docWords "x y z").length) = some chunks :=
  C6_terminates_on_valid_parameters "x y z" 3 1 (by decide) (by decide)

/-- C3 (amended): with `overlap > 0`, for every adjacent pair of chunks in
which the *first* chunk has at least `overlap` words, the last `overlap`
words of that chunk equal the first `overlap` words of the next.  (The
unamended claim fails when the flushed chunk has fewer than `overlap`
words — see the counterexample.) -/
theorem C3_overlap_chain_amended (text : String) (cs ov fuel : Nat)
    (hov : 0 < ov) (chunks : List String)
    (h : semantic_chunker text cs ov fuel = some chunks)
    (pre : List String) (c1 c2 : String) (post : List String)
    (hdec : chunks = pre ++ c1 :: c2 :: post)
    (hlong : ov ≤ (pyWords c1).length) :
    lastWords ov (pyWords c1) = firstWords ov (pyWords c2) := by
  obtain ⟨chunksW, hW, rfl⟩ := semantic_chunker_some text cs ov fuel chunks h
  obtain ⟨hall, hadj⟩ := semantic_chunkerW_spec text cs ov fuel chunksW hW
  obtain ⟨preW, a, b, postW, hdecW, rfl, rfl⟩ :=
    map_joinWords_decomp chunksW pre c1 c2 post hdec
  have hga : GoodWords a := (hall a (by rw [hdecW]; simp)).2
  have hgb : GoodWords b := (hall b (by rw [hdecW]; simp)).2
  rw [pyWords_joinWords a hga] at hlong ⊢
  rw [pyWords_joinWords b hgb]
  obtain ⟨tl, htl⟩ := hadj preW a b postW hdecW
  have hx : (pyLastSlice a ov).length = ov :=
    pyLastSlice_length_of_le a ov hov hlong
  rw [htl]
  unfold lastWords firstWords
  rw [List.take_append_of_le_length (le_of_eq hx.symm)]
  rw [List.take_of_length_le (le_of_eq hx)]
  rw [pyLastSlice_pos a ov hov]

/-- Counterexample to C3 as stated: at
`semantic_chunker "a\nb c d e f g" 5 2`, the first two adjacent chunks are
`"a"` and `"a b c d e"`; the last 2 words of `"a"` are just `["a"]` while
the first 2 words of `"a b c d e"` are `["a", "b"]`. -/
theorem C3_counterexample :
    semantic_chunker "a\nb c d e f g" 5 2 9 =
      some ["a", "a b c d e", "d e f g", "f g"] ∧
    lastWords 2 (pyWords "a") ≠ firstWords 2 (pyWords "a b c d e") :=
  ⟨by decide, by decide⟩

/-- Witness for the amended C3 on the pair `"a b c d e"`, `"d e f g"` of
the same run. -/
theorem C3_witness :
    lastWords 2 (pyWords "a b c d e") = firstWords 2 (pyWords "d e f g") :=
  C3_overlap_chain_amended "a\nb c d e f g" 5 2 9 (by decide)
    ["a", "a b c d e", "d e f g", "f g"] (by decide)
    ["a"] "a b c d e" "d e f g" ["f g"] (by decide) (by decide)

/-- Counterexample to C4 as stated: on the spec's example input the first
chunk the code produces is the whole first paragraph
`"Paragraph one has six words."` (5 words), not
`"Paragraph one has six words. Second"`: the second paragraph does not fit
(5 + 4 > 6), so the accumulator is flushed *before* any splitting. -/
theorem C4_counterexample :
    semantic_chunker
        "Paragraph one has six words.\nSecond paragraph has five." 6 2 9 =
      some ["Paragraph one has six words.",
        "six words. Second paragraph has five.", "has five."] ∧
    "Paragraph one has six words." ≠
      "Paragraph one has six words. Second" :=
  ⟨by decide, by decide⟩

/-- C4 (amended): on the example input with `chunk_size = 6`,
`overlap = 2`, the chunker produces three chunks; the first is the first
paragraph itself (5 words), the second starts with the last 2 words of the
first (`"six words."`) followed by the entire second paragraph, and the
final flush emits the trailing `"has five."`. -/
theorem C4_amended_example :
    semantic_chunker
        "Paragraph one has six words.\nSecond paragraph has five." 6 2 9 =
      some ["Paragraph one has six words.",
        "six words. Second paragraph has five.", "has five."] ∧
    (pyWords "Paragraph one has six words.").length = 5 ∧
    firstWords 2 (pyWords "six words. Second paragraph has five.") =
      lastWords 2 (pyWords "Paragraph one has six words.") ∧
    pyWords "six words. Second paragraph has five." =
      lastWords 2 (pyWords "Paragraph one has six words.") ++
        pyWords "Second paragraph has five." :=
  ⟨by decide, by decide, by decide, by decide⟩

/-- C9: at `overlap = 0` there is an input — a single paragraph with more
than `chunk_size` words — on which the chunker never terminates: the
`current_chunk[-0:]` retention keeps the whole accumulator, the next
`remaining` is `0`, and the inner loop repeats the same state for every
fuel. -/
theorem C9_overlap_zero_nontermination :
    ∃ (text : String) (cs : Nat), 0 < cs ∧
      ∀ fuel, semantic_chunker text cs 0 fuel = none := by
  refine ⟨"a b c", 2, by decide, ?_⟩
  intro fuel
  have hparas : (paragraphsOf "a b c").map pyWords = [["a", "b", "c"]] := by
    decide
  unfold semantic_chunker
  rw [hparas, paraLoop]
  rw [if_neg (by decide)]
  rw [if_pos rfl]
  rw [innerLoop_eq_W, innerLoopW_zero_div 2 ["a", "b", "c"] (by decide) fuel]
  rfl

/-- C10: with `0 < overlap < chunk_size`, when a paragraph's words run out
exactly at an inner-loop flush, the final flush emits a chunk consisting
only of the retained overlap words — a proper suffix of the previous chunk
carrying no new text.  Concretely at `chunk_size = 4`, `overlap = 1` on a
six-word paragraph, the last chunk is `"f"` — exactly the last 1 word of
the previous chunk `"d e f"`. -/
theorem C10_final_flush_retained_overlap_only :
    semantic_chunker "a b c d e f" 4 1 9 = some ["a b c d", "d e f", "f"] ∧
    pyWords "f" = lastWords 1 (pyWords "d e f") ∧
    (pyWords "f").length < (pyWords "d e f").length ∧
    (pyWords "f").length = 1 :=
  ⟨by decide, by decide, by decide, by decide⟩
